import Mathlib

/-!
# Verification of the PF1 Sequential Attacks module

Shallow embedding of `src/scripts/sequential-attacks.mjs` (the sequential
full-attack engine: planner filters, per-step context derivation, the
`SequentialAttackTracker` state machine and the ammo-commit helper) and of
the alternative chat-card variant in `src/unnamed/part_000`.

Machine numbers are modelled as `Int` (JS integers) and `ℚ` where the code
multiplies by a fractional power-attack multiplier and takes `Math.floor`.
Fallible planning phases return `Except`.
-/

/-- Planning failures raised before the sequence starts
(`ERR_REQUIREMENT.INSUFFICIENT_AMMO` / `INSUFFICIENT_CHARGES`). -/
inductive PlanError where
  | insufficientAmmo
  | insufficientCharges
deriving DecidableEq, Repr

/-- One attack entry of `shared.attacks` as the module reads it:
`hasAmmo` (the ammo reference resolves), the resolved ammo item id,
the per-attack `chargeCost` assigned by the charge filter (JS `null`
modelled as `none`), and an opaque payload standing for the remaining
fields (label, bonus formula) that identify the descriptor. -/
structure Atk where
  hasAmmo : Bool
  ammoId : Nat
  chargeCost : Option Int
  payload : Nat
deriving DecidableEq, Repr

/-- Ammo filter of the planning phase, `sequential-attacks.mjs` lines 144-151:
when the action consumes ammunition (`action.ammo.type && action.ammo.cost > 0`),
`shared.attacks = shared.attacks.filter((o) => o.hasAmmo)` and an empty result
is the `INSUFFICIENT_AMMO` planning failure. -/
def planAmmoPhase (ammoType : Bool) (ammoCost : Int) (attacks : List Atk) :
    Except PlanError (List Atk) :=
  if ammoType = true ∧ 0 < ammoCost then
    let kept := attacks.filter (fun o => o.hasAmmo)
    if kept.isEmpty then .error .insufficientAmmo else .ok kept
  else .ok attacks

/-- Charge-cost assignment of the planning phase, lines 163-166: the loop
`for (const [index, atk] of shared.attacks.entries())` sets
`atk.chargeCost = cost` when `charges >= (index + 1) * cost`, else `null`.
`i` is the index of the first element of the remaining list. -/
def assignChargeFrom (charges cost : Int) (i : Nat) : List Atk → List Atk
  | [] => []
  | a :: as =>
      (if ((i : Int) + 1) * cost ≤ charges then { a with chargeCost := some cost }
       else { a with chargeCost := none }) :: assignChargeFrom charges cost (i + 1) as

/-- Charge filter of the planning phase, lines 160-172: gated on
`rollData.chargeCost != 0 && shared.action.uses?.perAttack`; assigns per-attack
charge costs, keeps `chargeCost !== null`, and an empty result is the
`INSUFFICIENT_CHARGES` planning failure. -/
def planChargesPhase (chargeCost : Int) (perAttack : Bool) (itemCharges : Int)
    (attacks : List Atk) : Except PlanError (List Atk) :=
  if chargeCost ≠ 0 ∧ perAttack = true then
    let kept := (assignChargeFrom itemCharges chargeCost 0 attacks).filter
      (fun o => o.chargeCost.isSome)
    if kept.isEmpty then .error .insufficientCharges else .ok kept
  else .ok attacks

/-- The bookkeeping fields of `SequentialAttackTracker`:
`currentIndex`, `resolvedIndices`, `skippedIndices` and the `_completed`
flag (set both on exhaustion and on cancel, hence "terminal"). -/
structure Tracker where
  currentIndex : Nat
  resolved : Finset Nat
  skipped : Finset Nat
  completed : Bool
deriving DecidableEq

/-- Constructor state (lines 225-228): index 0, both sets empty, running. -/
def initTracker : Tracker := ⟨0, ∅, ∅, false⟩

/-- The state mutation at the end of a successful `_resolveCurrentAttack`
(lines 589-595): add the current index to `resolvedIndices`, increment
`currentIndex`, and set `_completed` when the sequence is exhausted.
`n` is `allAttacks.length`. -/
def resolveMark (n : Nat) (t : Tracker) : Tracker :=
  { currentIndex := t.currentIndex + 1,
    resolved := insert t.currentIndex t.resolved,
    skipped := t.skipped,
    completed := t.completed || decide (n ≤ t.currentIndex + 1) }

/-- `_skipCurrentAttack` (lines 604-614): add the current index to
`skippedIndices`, increment `currentIndex`, set `_completed` on exhaustion.
It touches neither the ledger nor the chat output. -/
def skipCurrentAttack (n : Nat) (t : Tracker) : Tracker :=
  { currentIndex := t.currentIndex + 1,
    resolved := t.resolved,
    skipped := insert t.currentIndex t.skipped,
    completed := t.completed || decide (n ≤ t.currentIndex + 1) }

/-- A user command against the tracker state: a successful Advance, an
Advance whose external work threw (caught by the click handler, leaving the
tracker untouched), or a Skip. -/
inductive SeqOp where
  | advance
  | advanceFailed
  | skip
deriving DecidableEq, Repr

/-- Effect of one command on the bookkeeping fields. -/
def applySeqOp (n : Nat) (t : Tracker) : SeqOp → Tracker
  | .advance => resolveMark n t
  | .advanceFailed => t
  | .skip => skipCurrentAttack n t

/-- A whole user session: fold the commands over the initial state. -/
def runOps (n : Nat) (ops : List SeqOp) : Tracker :=
  ops.foldl (applySeqOp n) initTracker

/-- The bookkeeping invariant of the claim: the resolved and skipped sets
partition `{0, …, currentIndex-1}`. -/
def trackerInv (t : Tracker) : Prop :=
  t.resolved ∪ t.skipped = Finset.range t.currentIndex ∧ Disjoint t.resolved t.skipped

/-- Per-step resource/output effects of one Advance attempt: how many times
the ammo subtraction helper and the charge subtraction ran, and whether the
chat card for the step was posted. -/
structure StepEffects where
  ammoCommits : Nat
  chargeCommits : Nat
  outcomeEmitted : Bool
deriving DecidableEq, Repr

/-- No resource commit, no chat card. -/
def noStepEffects : StepEffects := ⟨0, 0, false⟩

/-- Outcome of the external collaborators during one `_resolveCurrentAttack`
call: whether `Hooks.call("pf1PreActionUse")` returned `false`
(`hookAllows = false`), whether `shared.scriptData?.reject` was set
(`scriptAllows = false`), whether any awaited call before the commit block
threw (`rollThrows`), and whether `getMessageData`/`postMessage` threw after
the commits (`emitThrows`). -/
structure AdvanceEnv where
  hookAllows : Bool
  scriptAllows : Bool
  rollThrows : Bool
  emitThrows : Bool
deriving DecidableEq, Repr

/-- One click of the "Roll Next Attack" button, i.e. one run of
`_resolveCurrentAttack` under the try/catch of `_activateListeners`
(lines 348-361): a throw anywhere leaves the tracker fields untouched and
surfaces the error (`ui.notifications.error`); otherwise the commit block
(lines 542-578) runs only when the hook and the script calls allow it — the
ammo helper when `ammoCost !== 0 && atk.hasAmmo` (line 549), the charge
subtraction when `atk.chargeCost && atk.chargeCost > 0` (line 554) — and the
step is marked resolved (lines 589-595) in every non-throwing run, also when
the hook or the scripts rejected the chat card.
Returns (tracker, effects, error-surfaced). -/
def advanceAttempt (n : Nat) (ammoCost : Int) (atk : Atk) (env : AdvanceEnv)
    (t : Tracker) : Tracker × StepEffects × Bool :=
  if env.rollThrows then (t, noStepEffects, true)
  else if env.hookAllows && env.scriptAllows then
    let eff : StepEffects :=
      { ammoCommits := if ammoCost ≠ 0 ∧ atk.hasAmmo = true then 1 else 0,
        chargeCommits := if 0 < atk.chargeCost.getD 0 then 1 else 0,
        outcomeEmitted := !env.emitThrows }
    if env.emitThrows then (t, eff, true)
    else (resolveMark n t, eff, false)
  else (resolveMark n t, noStepEffects, false)

/-- The buttons of the tracker dialog body (`_buildTrackerBody`,
lines 330-341): while running, Next/Skip/Cancel; once `_completed`, only
the Done button exists, so Skip and Advance cannot be issued. -/
inductive TrackerButton where
  | nextBtn
  | skipBtn
  | cancelBtn
  | closeBtn
deriving DecidableEq, Repr

/-- Which buttons `_buildTrackerBody` renders for a given state. -/
def renderedButtons (t : Tracker) : List TrackerButton :=
  if t.completed then [.closeBtn] else [.nextBtn, .skipBtn, .cancelBtn]

/-- A Skip command delivered through the control surface: it reaches
`_skipCurrentAttack` only if the Skip button is rendered for the current
state (the dialog body is re-rendered after every step). `_skipCurrentAttack`
performs no ledger interaction and posts no chat card, so its effects are
`noStepEffects`. Returns (tracker, effects, accepted). -/
def clickSkipBtn (n : Nat) (t : Tracker) : Tracker × StepEffects × Bool :=
  if TrackerButton.skipBtn ∈ renderedButtons t then
    (skipCurrentAttack n t, noStepEffects, true)
  else (t, noStepEffects, false)

/-- An Advance command delivered through the control surface.
Returns (tracker, effects, accepted). -/
def clickNextBtn (n : Nat) (ammoCost : Int) (atk : Atk) (env : AdvanceEnv)
    (t : Tracker) : Tracker × StepEffects × Bool :=
  if TrackerButton.nextBtn ∈ renderedButtons t then
    let r := advanceAttempt n ammoCost atk env t
    (r.1, r.2.1, true)
  else (t, noStepEffects, false)

/-- Proof helper: the number of leading attacks affordable when counting
positions from `i` (the greedy prefix length of the charge filter). -/
def affordLen (charges cost : Int) (i : Nat) : List Atk → Nat
  | [] => 0
  | _ :: as =>
      if ((i : Int) + 1) * cost ≤ charges then affordLen charges cost (i + 1) as + 1
      else 0

/-! ## Step context: charge bonus (first attack only) -/

/-- JS `hay.startsWith(tag)` over character lists. -/
def startsWithChars : List Char → List Char → Bool
  | _, [] => true
  | [], _ :: _ => false
  | c :: cs, d :: ds => c == d && startsWithChars cs ds

/-- JS `hay.includes(tag)` over character lists. -/
def containsSub : List Char → List Char → Bool
  | [], tag => tag.isEmpty
  | c :: cs, tag => startsWithChars (c :: cs) tag || containsSub cs tag

/-- `part.includes(chargeTag)` on strings. -/
def hasTag (tag part : String) : Bool := containsSub part.data tag.data

/-- The tag text built at line 408: `` `[${chargeLabel}]` ``. -/
def chargeTagOf (chargeLabel : String) : String := "[" ++ chargeLabel ++ "]"

/-- The parts of `shared` that the charge-clearing step touches:
`shared.formData.charge`, `shared.charge` and the additive attack bonus
parts `shared.attackBonus`. -/
structure SharedSeq where
  formDataCharge : Bool
  charge : Bool
  attackBonus : List String
deriving DecidableEq, Repr

/-- The charge-clearing step of `_resolveCurrentAttack` (lines 404-410):
for any step with `idx > 0` while the charge selection is still set, clear
both flags and drop every attack bonus part containing the charge tag. -/
def clearChargeForStep (chargeLabel : String) (idx : Nat) (sh : SharedSeq) : SharedSeq :=
  if 0 < idx ∧ sh.formDataCharge = true then
    { formDataCharge := false,
      charge := false,
      attackBonus := sh.attackBonus.filter
        (fun part => !(hasTag (chargeTagOf chargeLabel) part)) }
  else sh

/-- The shared state after a list of Advance steps has been processed in
order (`_skipCurrentAttack` never touches `shared`, so skipped indices do
not appear). -/
def runShared (chargeLabel : String) (sh : SharedSeq) : List Nat → SharedSeq
  | [] => sh
  | i :: is => runShared chargeLabel (clearChargeForStep chargeLabel i sh) is

/-- The additive attack bonus terms handed to the roll for one step,
line 473: `extraParts: [...shared.attackBonus, atk.attackBonus]`. -/
def stepExtraParts (sh : SharedSeq) (atkBonus : String) : List String :=
  sh.attackBonus ++ [atkBonus]

/-- Proof helper: either the charge selection is still set, or it has been
cleared together with every tagged bonus part (the clearing step removes
both at once and nothing re-adds them). -/
def chargeClearInv (tag : String) (sh : SharedSeq) : Prop :=
  sh.formDataCharge = true ∨
    (sh.charge = false ∧ ∀ p ∈ sh.attackBonus, hasTag tag p = false)

/-! ## Step context: power attack -/

/-- The live actor state the roll-data refresh reads: the current base
attack bonus total and the action's power-attack damage bonus per
increment (`rollData.action?.powerAttack?.damageBonus`). -/
structure ActorState where
  babTotal : Int
  paDamageBonus : Option Int
deriving DecidableEq, Repr

/-- The slice of the refreshed roll data that the power-attack block reads:
`rollData.attributes.bab.total`, `rollData.bab` and the action's
power-attack damage bonus. -/
structure RollData where
  attributesBabTotal : Int
  bab : Int
  actionPowerAttackDamageBonus : Option Int
deriving DecidableEq, Repr

/-- Modelled from the spec: the external host's roll-data refresh
(`actionUse.getRollData()`, out-of-scope host code; spec §4.3 rule 1 and
§6 "Host action/item source") exposes the actor's current
base-attack-bonus total under both accessors the module reads
(`rollData.attributes.bab.total` and `rollData.bab`). -/
def getRollData (actor : ActorState) : RollData :=
  { attributesBabTotal := actor.babTotal,
    bab := actor.babTotal,
    actionPowerAttackDamageBonus := actor.paDamageBonus }

/-- The power-attack block of `_resolveCurrentAttack` (lines 415-427),
run on every step against the refreshed roll data: JS `Math.floor` on a
real-number quotient/product is `Int.floor` over `ℚ`. Returns
`(powerAttackBonus, powerAttackPenalty)`. -/
def computePowerAttack (powerAttackActive : Bool) (rd : RollData) (paMult : ℚ) :
    Int × Int :=
  if powerAttackActive then
    let basePowerAttackBonus : Int := rd.actionPowerAttackDamageBonus.getD 2
    let raw : Int := (1 + Int.floor ((rd.attributesBabTotal : ℚ) / 4)) * basePowerAttackBonus
    let bonus : Int := Int.floor ((raw : ℚ) * paMult)
    let penalty : Int := -(1 + Int.floor ((rd.bab : ℚ) / 4))
    (bonus, penalty)
  else (0, 0)

/-- Per-step power-attack context: every step recomputes from a fresh
`getRollData` of the current actor state, never from a cached value. -/
def resolveStepPowerAttack (actor : ActorState) (powerAttackActive : Bool)
    (paMult : ℚ) : Int × Int :=
  computePowerAttack powerAttackActive (getRollData actor) paMult

/-! ## Ammo commit helper -/

/-- The fields of an ammo inventory item the commit helper reads:
`system.abundant` and `system.quantity`. -/
structure AmmoItem where
  abundant : Bool
  quantity : Int
deriving DecidableEq, Repr

/-- `_subtractSingleAttackAmmo` (lines 640-652) acting on the actor's item
store (ammo id → item): guards on `action.hasAttack`, `action.ammo.type`,
a resolved `atk.ammo`, the item existing, and `abundant` (a no-op that
still succeeds); otherwise persists `quantity - ammoCost` with no clamping. -/
def subtractSingleAttackAmmo (hasAttack ammoType : Bool) (atkAmmo : Option Nat)
    (items : Nat → Option AmmoItem) (ammoCost : Int) : Nat → Option AmmoItem :=
  if hasAttack = false then items
  else if ammoType = false then items
  else
    match atkAmmo with
    | none => items
    | some id =>
        match items id with
        | none => items
        | some it =>
            if it.abundant then items
            else fun j =>
              if j = id then some { it with quantity := it.quantity - ammoCost }
              else items j

/-! ## Alternative chat-card variant (`src/unnamed/part_000`) -/

/-- One `[bonus, label]` entry of `attackParts`. -/
def AttackPart : Type := String × String
deriving instance DecidableEq, Inhabited for AttackPart

/-- A PF1 ItemAction as the variant reads it: `action.system` and
`action.data` may each be absent (old vs. new schema), and when present may
or may not carry an `attackParts` field. -/
structure SeqCardAction where
  system : Option (Option (List AttackPart))
  data : Option (Option (List AttackPart))
deriving DecidableEq

/-- `getAttackParts` (part_000 lines 31-33):
`action?.system?.attackParts ?? action?.data?.attackParts ?? []`. -/
def getAttackParts (a : SeqCardAction) : List AttackPart :=
  match a.system.join with
  | some ps => ps
  | none =>
      match a.data.join with
      | some ps => ps
      | none => []

/-- The narrowing/restore write (part_000 lines 167-171 and 179-184):
`if (action.system) action.system.attackParts = ps; else if (action.data) ...`. -/
def setAttackParts (a : SeqCardAction) (ps : List AttackPart) : SeqCardAction :=
  if a.system.isSome then { a with system := some (some ps) }
  else if a.data.isSome then { a with data := some (some ps) }
  else a

/-- The state the click handler mutates: the action and the module-level
`_pendingSingleAttack` flag (holding an action id when set). -/
structure HandlerState where
  action : SeqCardAction
  pending : Option Nat
deriving DecidableEq

/-- Whether `action.use({ skipDialog: true })` returned normally or threw. -/
inductive UseOutcome where
  | ok
  | threw
deriving DecidableEq, Repr

/-- The single-attack button click handler (part_000 lines 126-187): clone
the original parts, bail out if the index is out of range, set the pending
flag, narrow `attackParts` to the one attack, run `action.use`, and in the
`finally` block — reached whether the roll succeeded or threw — restore the
original parts and reset the pending flag to null. -/
def seqCardClick (st : HandlerState) (actionId : Nat) (attackIndex : Nat)
    (outcome : UseOutcome) : HandlerState :=
  let origParts := getAttackParts st.action
  if origParts.length < attackIndex then st
  else
    let singlePart : List AttackPart :=
      if attackIndex = 0 then [] else [origParts.getD (attackIndex - 1) default]
    let stPending : HandlerState := { st with pending := some actionId }
    let stNarrow : HandlerState :=
      { stPending with action := setAttackParts stPending.action singlePart }
    match outcome with
    | .ok => { action := setAttackParts stNarrow.action origParts, pending := none }
    | .threw => { action := setAttackParts stNarrow.action origParts, pending := none }

/-! ## Theorems -/

theorem trackerInv_init : trackerInv initTracker := by
  constructor
  · simp [initTracker]
  · simp [initTracker]

theorem trackerInv_applySeqOp (n : Nat) (t : Tracker) (op : SeqOp)
    (h : trackerInv t) : trackerInv (applySeqOp n t op) := by
  obtain ⟨hu, hd⟩ := h
  cases op with
  | advance =>
      refine ⟨?_, ?_⟩
      · show insert t.currentIndex t.resolved ∪ t.skipped = Finset.range (t.currentIndex + 1)
        rw [Finset.insert_union, hu, Finset.range_succ]
      · show Disjoint (insert t.currentIndex t.resolved) t.skipped
        rw [Finset.disjoint_insert_left]
        refine ⟨?_, hd⟩
        intro hmem
        have hm : t.currentIndex ∈ t.resolved ∪ t.skipped := Finset.mem_union_right _ hmem
        rw [hu, Finset.mem_range] at hm
        exact absurd hm (lt_irrefl _)
  | advanceFailed => exact ⟨hu, hd⟩
  | skip =>
      refine ⟨?_, ?_⟩
      · show t.resolved ∪ insert t.currentIndex t.skipped = Finset.range (t.currentIndex + 1)
        rw [Finset.union_insert, hu, Finset.range_succ]
      · show Disjoint t.resolved (insert t.currentIndex t.skipped)
        rw [Finset.disjoint_insert_right]
        refine ⟨?_, hd⟩
        intro hmem
        have hm : t.currentIndex ∈ t.resolved ∪ t.skipped := Finset.mem_union_left _ hmem
        rw [hu, Finset.mem_range] at hm
        exact absurd hm (lt_irrefl _)

theorem trackerInv_foldl (n : Nat) (ops : List SeqOp) (t : Tracker)
    (h : trackerInv t) : trackerInv (ops.foldl (applySeqOp n) t) := by
  induction ops generalizing t with
  | nil => exact h
  | cons op ops ih => exact ih _ (trackerInv_applySeqOp n t op h)

theorem currentIndex_mono_applySeqOp (n : Nat) (t : Tracker) (op : SeqOp) :
    t.currentIndex ≤ (applySeqOp n t op).currentIndex := by
  cases op <;> simp [applySeqOp, resolveMark, skipCurrentAttack]

/-- C3: across any sequence of Advance (successful or failed) and Skip
operations from the initial tracker state, the resolved and skipped index
sets stay disjoint and their union is exactly `{0, …, currentIndex-1}`,
and `currentIndex` never decreases when a further operation is applied. -/
theorem tracker_bookkeeping_invariant (n : Nat) (ops : List SeqOp) :
    (runOps n ops).resolved ∪ (runOps n ops).skipped
        = Finset.range (runOps n ops).currentIndex
    ∧ Disjoint (runOps n ops).resolved (runOps n ops).skipped
    ∧ ∀ op : SeqOp,
        (runOps n ops).currentIndex ≤ (runOps n (ops ++ [op])).currentIndex := by
  have hinv := trackerInv_foldl n ops initTracker trackerInv_init
  refine ⟨hinv.1, hinv.2, ?_⟩
  intro op
  have hstep : runOps n (ops ++ [op]) = applySeqOp n (runOps n ops) op := by
    simp [runOps, List.foldl_append]
  rw [hstep]
  exact currentIndex_mono_applySeqOp n (runOps n ops) op

/-- C6: if the external work of an Advance throws — any awaited call before
the commit block (`rollThrows`) or the message build/post after it
(`emitThrows`) — the tracker fields are untouched: the step is not added to
`resolvedIndices`, `currentIndex` is unchanged, `_completed` is unchanged
(the controller stays Running at the same index, so the step can be
retried), and the error is surfaced to the user. -/
theorem advance_failure_leaves_step_unresolved (n : Nat) (ammoCost : Int)
    (atk : Atk) (env : AdvanceEnv) (t : Tracker)
    (h : env.rollThrows = true ∨
      (env.hookAllows = true ∧ env.scriptAllows = true ∧ env.emitThrows = true)) :
    (advanceAttempt n ammoCost atk env t).1 = t
    ∧ (advanceAttempt n ammoCost atk env t).2.2 = true := by
  rcases h with h | ⟨h1, h2, h3⟩
  · refine ⟨?_, ?_⟩ <;> simp [advanceAttempt, h]
  · by_cases hr : env.rollThrows = true
    · refine ⟨?_, ?_⟩ <;> simp [advanceAttempt, hr]
    · rw [Bool.not_eq_true] at hr
      refine ⟨?_, ?_⟩ <;> simp [advanceAttempt, hr, h1, h2, h3]

theorem advance_failure_leaves_step_unresolved_witness :
    (advanceAttempt 3 1 ⟨true, 0, some 1, 0⟩ ⟨true, true, true, false⟩ initTracker).1
        = initTracker
    ∧ (advanceAttempt 3 1 ⟨true, 0, some 1, 0⟩ ⟨true, true, true, false⟩
        initTracker).2.2 = true :=
  advance_failure_leaves_step_unresolved 3 1 ⟨true, 0, some 1, 0⟩
    ⟨true, true, true, false⟩ initTracker (Or.inl rfl)

/-- C8: on a terminal tracker (`_completed` is set, by exhaustion or by
Cancel), `_buildTrackerBody` renders neither the Skip nor the Next button,
so a Skip or Advance command is rejected by the control surface with no
side effect: the tracker fields, the ledger and the chat output are all
left unchanged. -/
theorem terminal_commands_rejected (n : Nat) (ammoCost : Int) (atk : Atk)
    (env : AdvanceEnv) (t : Tracker) (h : t.completed = true) :
    clickSkipBtn n t = (t, noStepEffects, false)
    ∧ clickNextBtn n ammoCost atk env t = (t, noStepEffects, false) := by
  constructor
  · simp [clickSkipBtn, renderedButtons, h]
  · simp [clickNextBtn, renderedButtons, h]

theorem terminal_commands_rejected_witness :
    clickSkipBtn 2 ⟨2, {0}, {1}, true⟩ = (⟨2, {0}, {1}, true⟩, noStepEffects, false)
    ∧ clickNextBtn 2 1 ⟨true, 0, none, 0⟩ ⟨true, true, false, false⟩ ⟨2, {0}, {1}, true⟩
        = (⟨2, {0}, {1}, true⟩, noStepEffects, false) :=
  terminal_commands_rejected 2 1 ⟨true, 0, none, 0⟩ ⟨true, true, false, false⟩
    ⟨2, {0}, {1}, true⟩ rfl

/-- C1: on every step, the power-attack context is recomputed from the
freshly refreshed roll data: the penalty is `-(1 + floor(babTotal/4))` and
the bonus is `floor((1 + floor(babTotal/4)) * basePerIncrement * multiplier)`,
both derived from the actor's current base-attack-bonus total; with
`babTotal = 8`, `basePerIncrement = 2`, multiplier `1.5` a step yields
`(bonus, penalty) = (9, -3)`, and a later step taken after `babTotal`
dropped to 4 yields `(6, -2)`. -/
theorem power_attack_recomputed_per_step :
    (∀ (actor : ActorState) (paMult : ℚ),
      resolveStepPowerAttack actor true paMult =
        (Int.floor ((((1 + Int.floor ((actor.babTotal : ℚ) / 4))
            * actor.paDamageBonus.getD 2 : Int) : ℚ) * paMult),
         -(1 + Int.floor ((actor.babTotal : ℚ) / 4))))
    ∧ resolveStepPowerAttack ⟨8, some 2⟩ true (3 / 2) = (9, -3)
    ∧ resolveStepPowerAttack ⟨4, some 2⟩ true (3 / 2) = (6, -2) := by
  refine ⟨fun actor paMult => rfl, ?_, ?_⟩
  · show (Int.floor ((((1 + Int.floor ((8 : ℚ) / 4)) * 2 : Int) : ℚ) * (3 / 2)),
        -(1 + Int.floor ((8 : ℚ) / 4))) = ((9 : Int), (-3 : Int))
    norm_num
  · show (Int.floor ((((1 + Int.floor ((4 : ℚ) / 4)) * 2 : Int) : ℚ) * (3 / 2)),
        -(1 + Int.floor ((4 : ℚ) / 4))) = ((6 : Int), (-2 : Int))
    norm_num

/-- C7 counterexample: a single successful Advance in which the
`pf1PreActionUse` hook returns `false` (`hookAllows = false`) marks the
step resolved — `resolvedIndices = {0}` — yet performs no ammo commit, no
charge commit and emits no outcome, even though the attack has resolvable
ammo, a nonzero ammo cost and a positive charge cost.  So "each resource
cost is committed exactly once per resolved step" fails. -/
theorem resolved_step_without_commit :
    (advanceAttempt 1 1 ⟨true, 0, some 1, 0⟩ ⟨false, true, false, false⟩
        initTracker).1.resolved = {0}
    ∧ (advanceAttempt 1 1 ⟨true, 0, some 1, 0⟩ ⟨false, true, false, false⟩
        initTracker).2.1 = noStepEffects := by
  constructor
  · rfl
  · rfl

/-- C7 amended: Skip never mutates the ledger and never emits a step
outcome.  Resource commits happen only inside an Advance attempt for the
current step, at most once per attempt, and exactly when the attempt does
not throw before the commit block, the `pf1PreActionUse` hook and the
script calls allow the attack, and the respective cost condition holds;
the outcome is emitted exactly when additionally the message build/post
does not throw.  A step can therefore be resolved with zero commits (hook
or script rejection), and a failed attempt that threw after committing
keeps its commits, so a retried step can commit more than once in total
(final conjunct: first attempt throws during emission, retry succeeds —
two ammo commits for the single resolved step 0). -/
theorem commit_discipline (n : Nat) (ammoCost : Int) (atk : Atk)
    (env : AdvanceEnv) (t : Tracker) :
    (clickSkipBtn n t).2.1 = noStepEffects
    ∧ ((advanceAttempt n ammoCost atk env t).2.1.ammoCommits
        = if env.rollThrows = false ∧ env.hookAllows = true ∧ env.scriptAllows = true
            ∧ ammoCost ≠ 0 ∧ atk.hasAmmo = true then 1 else 0)
    ∧ ((advanceAttempt n ammoCost atk env t).2.1.chargeCommits
        = if env.rollThrows = false ∧ env.hookAllows = true ∧ env.scriptAllows = true
            ∧ 0 < atk.chargeCost.getD 0 then 1 else 0)
    ∧ ((advanceAttempt n ammoCost atk env t).2.1.outcomeEmitted
        = (!env.rollThrows && (env.hookAllows && env.scriptAllows) && !env.emitThrows))
    ∧ (advanceAttempt n ammoCost atk env t).2.1.ammoCommits ≤ 1
    ∧ (advanceAttempt n ammoCost atk env t).2.1.chargeCommits ≤ 1
    ∧ ((advanceAttempt 1 1 ⟨true, 0, none, 0⟩ ⟨true, true, false, true⟩
          initTracker).2.1.ammoCommits
        + (advanceAttempt 1 1 ⟨true, 0, none, 0⟩ ⟨true, true, false, false⟩
            ((advanceAttempt 1 1 ⟨true, 0, none, 0⟩ ⟨true, true, false, true⟩
              initTracker).1)).2.1.ammoCommits = 2
        ∧ (advanceAttempt 1 1 ⟨true, 0, none, 0⟩ ⟨true, true, false, false⟩
            ((advanceAttempt 1 1 ⟨true, 0, none, 0⟩ ⟨true, true, false, true⟩
              initTracker).1)).1.resolved = {0}) := by
  refine ⟨?_, ?_, ?_, ?_, ?_, ?_, by decide⟩
  · unfold clickSkipBtn
    by_cases h : TrackerButton.skipBtn ∈ renderedButtons t <;> simp [h]
  · rcases env with ⟨hk, sc, rt, et⟩
    cases hk <;> cases sc <;> cases rt <;> cases et <;>
      simp_all [advanceAttempt, noStepEffects]
  · rcases env with ⟨hk, sc, rt, et⟩
    cases hk <;> cases sc <;> cases rt <;> cases et <;>
      simp_all [advanceAttempt, noStepEffects]
  · rcases env with ⟨hk, sc, rt, et⟩
    cases hk <;> cases sc <;> cases rt <;> cases et <;>
      simp_all [advanceAttempt, noStepEffects]
  · rcases env with ⟨hk, sc, rt, et⟩
    cases hk <;> cases sc <;> cases rt <;> cases et <;>
      simp [advanceAttempt, noStepEffects] <;> split <;> simp
  · rcases env with ⟨hk, sc, rt, et⟩
    cases hk <;> cases sc <;> cases rt <;> cases et <;>
      simp [advanceAttempt, noStepEffects] <;> split <;> simp

/-- C5: for an ammunition-consuming action, planning keeps exactly the
attacks whose ammo reference resolves, in their original relative order
(re-indexed densely by list position), and fails with the
insufficient-ammo error exactly when nothing survives; concretely, of
three raw attacks with resolvable ammo only at positions 0 and 2, planning
yields exactly those two at result positions 0 and 1. -/
theorem ammo_planning_filter (ammoCost : Int) (attacks : List Atk)
    (hc : 0 < ammoCost) :
    (∀ l, planAmmoPhase true ammoCost attacks = .ok l →
        l = attacks.filter (fun o => o.hasAmmo)
        ∧ l.Sublist attacks
        ∧ ∀ a : Atk, a ∈ l ↔ a ∈ attacks ∧ a.hasAmmo = true)
    ∧ (planAmmoPhase true ammoCost attacks = .error PlanError.insufficientAmmo
        ↔ attacks.filter (fun o => o.hasAmmo) = [])
    ∧ planAmmoPhase true 1
        [⟨true, 0, none, 0⟩, ⟨false, 0, none, 1⟩, ⟨true, 0, none, 2⟩]
        = .ok [⟨true, 0, none, 0⟩, ⟨true, 0, none, 2⟩] := by
  have hgate : (true = true ∧ 0 < ammoCost) := ⟨rfl, hc⟩
  refine ⟨?_, ?_, rfl⟩
  · intro l hok
    rw [planAmmoPhase, if_pos hgate] at hok
    by_cases he : (attacks.filter (fun o => o.hasAmmo)).isEmpty
    · rw [if_pos he] at hok
      exact absurd hok (by simp)
    · rw [if_neg he] at hok
      have hl : attacks.filter (fun o => o.hasAmmo) = l := by
        injection hok
      subst hl
      exact ⟨rfl, List.filter_sublist attacks, fun a => by
        simp [List.mem_filter]⟩
  · rw [planAmmoPhase, if_pos hgate]
    by_cases he : (attacks.filter (fun o => o.hasAmmo)).isEmpty
    · rw [if_pos he]
      simp only [List.isEmpty_iff] at he
      simp [he]
    · rw [if_neg he]
      simp only [List.isEmpty_iff] at he
      simp [he]

theorem ammo_planning_filter_witness :
    planAmmoPhase true 1
        [⟨true, 0, none, 0⟩, ⟨false, 0, none, 1⟩, ⟨true, 0, none, 2⟩]
        = .ok [⟨true, 0, none, 0⟩, ⟨true, 0, none, 2⟩] :=
  (ammo_planning_filter 1
    [⟨true, 0, none, 0⟩, ⟨false, 0, none, 1⟩, ⟨true, 0, none, 2⟩] (by decide)).2.2

theorem chargeFilter_tail_nil (charges cost : Int) (hc : 0 < cost) :
    ∀ (l : List Atk) (i : Nat), charges < ((i : Int) + 1) * cost →
      (assignChargeFrom charges cost i l).filter (fun o => o.chargeCost.isSome)
        = [] := by
  intro l
  induction l with
  | nil => intro i _; rfl
  | cons a as ih =>
      intro i h
      have hcond : ¬ (((i : Int) + 1) * cost ≤ charges) := not_le.mpr h
      rw [assignChargeFrom, if_neg hcond, List.filter_cons]
      have hstep : charges < (((i + 1 : Nat) : Int) + 1) * cost := by
        have hle : ((i : Int) + 1) * cost ≤ (((i + 1 : Nat) : Int) + 1) * cost := by
          have : ((i : Int) + 1) ≤ (((i + 1 : Nat) : Int) + 1) := by push_cast; linarith
          exact mul_le_mul_of_nonneg_right this (le_of_lt hc)
        exact lt_of_lt_of_le h hle
      simp only [Option.isSome_none, Bool.false_eq_true, if_false, cond_false]
      exact ih (i + 1) hstep

theorem chargeFilter_eq_take (charges cost : Int) (hc : 0 < cost) :
    ∀ (l : List Atk) (i : Nat),
      (assignChargeFrom charges cost i l).filter (fun o => o.chargeCost.isSome)
        = (l.take (affordLen charges cost i l)).map
            (fun a => { a with chargeCost := some cost }) := by
  intro l
  induction l with
  | nil => intro i; rfl
  | cons a as ih =>
      intro i
      by_cases hcond : ((i : Int) + 1) * cost ≤ charges
      · rw [assignChargeFrom, if_pos hcond, List.filter_cons, affordLen, if_pos hcond]
        simp only [Option.isSome_some, if_true, cond_true, List.take_succ_cons,
          List.map_cons]
        rw [ih (i + 1)]
      · rw [assignChargeFrom, if_neg hcond, List.filter_cons, affordLen, if_neg hcond]
        simp only [Option.isSome_none, Bool.false_eq_true, if_false, cond_false,
          List.take_zero, List.map_nil]
        exact chargeFilter_tail_nil charges cost hc as (i + 1) (by
          have h : charges < ((i : Int) + 1) * cost := not_le.mp hcond
          have hle : ((i : Int) + 1) * cost ≤ (((i + 1 : Nat) : Int) + 1) * cost := by
            have : ((i : Int) + 1) ≤ (((i + 1 : Nat) : Int) + 1) := by push_cast; linarith
            exact mul_le_mul_of_nonneg_right this (le_of_lt hc)
          exact lt_of_lt_of_le h hle)

theorem affordLen_le_length (charges cost : Int) :
    ∀ (l : List Atk) (i : Nat), affordLen charges cost i l ≤ l.length := by
  intro l
  induction l with
  | nil => intro i; exact Nat.le_refl 0
  | cons a as ih =>
      intro i
      rw [affordLen]
      by_cases hcond : ((i : Int) + 1) * cost ≤ charges
      · rw [if_pos hcond]
        exact Nat.succ_le_succ (ih (i + 1))
      · rw [if_neg hcond]
        exact Nat.zero_le _

theorem lt_affordLen_iff (charges cost : Int) (hc : 0 < cost) :
    ∀ (l : List Atk) (i j : Nat),
      j < affordLen charges cost i l
        ↔ (j < l.length ∧ ((i : Int) + (j : Int) + 1) * cost ≤ charges) := by
  intro l
  induction l with
  | nil => intro i j; simp [affordLen]
  | cons a as ih =>
      intro i j
      rw [affordLen]
      by_cases hcond : ((i : Int) + 1) * cost ≤ charges
      · rw [if_pos hcond]
        cases j with
        | zero =>
            constructor
            · intro _
              refine ⟨Nat.succ_pos _, ?_⟩
              simpa using hcond
            · intro _
              exact Nat.succ_pos _
        | succ j =>
            rw [Nat.succ_lt_succ_iff, ih (i + 1) j]
            constructor
            · rintro ⟨h1, h2⟩
              refine ⟨by simpa [Nat.succ_lt_succ_iff] using h1, ?_⟩
              have : ((i : Int) + 1 + (j : Int) + 1) * cost ≤ charges := by
                push_cast at h2 ⊢; linarith
              push_cast
              linarith [this]
            · rintro ⟨h1, h2⟩
              refine ⟨by simpa [Nat.succ_lt_succ_iff] using h1, ?_⟩
              push_cast at h2 ⊢
              linarith
      · rw [if_neg hcond]
        simp only [Nat.not_lt_zero, false_iff, not_and]
        intro _
        intro hle
        apply hcond
        have hmono : ((i : Int) + 1) * cost ≤ ((i : Int) + (j : Int) + 1) * cost := by
          have : ((i : Int) + 1) ≤ ((i : Int) + (j : Int) + 1) := by
            have : (0 : Int) ≤ (j : Int) := Int.natCast_nonneg j
            linarith
          exact mul_le_mul_of_nonneg_right this (le_of_lt hc)
        exact le_trans hmono hle

/-- C4: for an action consuming charges per attack with cost `c > 0` and
pool `C`, planning keeps exactly the attacks at 0-based position `j` with
`C >= (j+1)*c` — an affordable prefix, each surviving attack carrying
`chargeCost = c` — and fails with the insufficient-charges error exactly
when no attack is affordable; concretely `C = 2`, `c = 1` and 3 raw
attacks plan to exactly the first 2. -/
theorem charge_planning_affordable_front (cost charges : Int)
    (attacks : List Atk) (hc : 0 < cost) :
    (∀ l, planChargesPhase cost true charges attacks = .ok l →
        l = (attacks.take l.length).map (fun a => { a with chargeCost := some cost })
        ∧ (∀ j : Nat, j < attacks.length →
            (j < l.length ↔ ((j : Int) + 1) * cost ≤ charges))
        ∧ ∀ a : Atk, a ∈ l → a.chargeCost = some cost)
    ∧ (planChargesPhase cost true charges attacks
          = .error PlanError.insufficientCharges
        ↔ (attacks = [] ∨ charges < cost))
    ∧ planChargesPhase 1 true 2
        [⟨false, 0, none, 0⟩, ⟨false, 0, none, 1⟩, ⟨false, 0, none, 2⟩]
        = .ok [⟨false, 0, some 1, 0⟩, ⟨false, 0, some 1, 1⟩] := by
  have hgate : (cost ≠ 0 ∧ true = true) := ⟨ne_of_gt hc, rfl⟩
  have hkept := chargeFilter_eq_take charges cost hc attacks 0
  have hKlen : affordLen charges cost 0 attacks ≤ attacks.length :=
    affordLen_le_length charges cost attacks 0
  have hlt : ∀ j : Nat, j < affordLen charges cost 0 attacks
      ↔ (j < attacks.length ∧ ((j : Int) + 1) * cost ≤ charges) := by
    intro j
    have h := lt_affordLen_iff charges cost hc attacks 0 j
    simpa using h
  have hkeptlen : ((assignChargeFrom charges cost 0 attacks).filter
      (fun o => o.chargeCost.isSome)).length = affordLen charges cost 0 attacks := by
    rw [hkept, List.length_map, List.length_take]
    exact Nat.min_eq_left hKlen
  have hK0 : (affordLen charges cost 0 attacks = 0)
      ↔ (attacks = [] ∨ charges < cost) := by
    constructor
    · intro h
      by_cases hnil : attacks = []
      · exact Or.inl hnil
      · right
        by_contra hlt2
        push_neg at hlt2
        have h0 : 0 < affordLen charges cost 0 attacks :=
          (hlt 0).mpr ⟨List.length_pos.mpr hnil, by simpa using hlt2⟩
        omega
    · intro h
      by_contra hne
      have h0 : 0 < affordLen charges cost 0 attacks := Nat.pos_of_ne_zero hne
      have hh := (hlt 0).mp h0
      rcases h with h | h
      · rw [h] at hh
        simp at hh
      · have hc2 : ((0 : Int) + 1) * cost ≤ charges := by
          simpa using hh.2
        simp only [zero_add, one_mul] at hc2
        linarith
  have hiff : ((assignChargeFrom charges cost 0 attacks).filter
      (fun o => o.chargeCost.isSome)) = [] ↔ (attacks = [] ∨ charges < cost) := by
    rw [← hK0]
    constructor
    · intro h
      rw [← hkeptlen, h]
      rfl
    · intro h
      have hlen := hkeptlen
      rw [h] at hlen
      exact List.length_eq_zero.mp hlen
  have hunfold : planChargesPhase cost true charges attacks
      = (if ((assignChargeFrom charges cost 0 attacks).filter
            (fun o => o.chargeCost.isSome)).isEmpty
         then .error .insufficientCharges
         else .ok ((assignChargeFrom charges cost 0 attacks).filter
            (fun o => o.chargeCost.isSome))) := by
    unfold planChargesPhase
    rw [if_pos hgate]
  refine ⟨?_, ?_, rfl⟩
  · intro l hok
    rw [hunfold] at hok
    by_cases he : ((assignChargeFrom charges cost 0 attacks).filter
        (fun o => o.chargeCost.isSome)).isEmpty
    · rw [if_pos he] at hok
      exact absurd hok (by simp)
    · rw [if_neg he] at hok
      have hl : ((assignChargeFrom charges cost 0 attacks).filter
          (fun o => o.chargeCost.isSome)) = l := by
        injection hok
      have hlen : l.length = affordLen charges cost 0 attacks := by
        rw [← hl]
        exact hkeptlen
      refine ⟨?_, ?_, ?_⟩
      · rw [← hl, hkeptlen]
        exact hkept
      · intro j hj
        rw [hlen, hlt j]
        simp [hj]
      · intro a ha
        rw [← hl, hkept] at ha
        rcases List.mem_map.mp ha with ⟨x, _, hx⟩
        rw [← hx]
  · rw [hunfold]
    by_cases he : ((assignChargeFrom charges cost 0 attacks).filter
        (fun o => o.chargeCost.isSome)).isEmpty
    · rw [if_pos he]
      have hcase : attacks = [] ∨ charges < cost := hiff.mp (List.isEmpty_iff.mp he)
      simp [hcase]
    · rw [if_neg he]
      have hcase : ¬(attacks = [] ∨ charges < cost) := fun hcontr =>
        he (List.isEmpty_iff.mpr (hiff.mpr hcontr))
      simp [hcase]

theorem charge_planning_affordable_front_witness :
    planChargesPhase 1 true 2
        [⟨false, 0, none, 0⟩, ⟨false, 0, none, 1⟩, ⟨false, 0, none, 2⟩]
        = .ok [⟨false, 0, some 1, 0⟩, ⟨false, 0, some 1, 1⟩] :=
  (charge_planning_affordable_front 1 2
    [⟨false, 0, none, 0⟩, ⟨false, 0, none, 1⟩, ⟨false, 0, none, 2⟩]
    (by decide)).2.2

theorem chargeClearInv_clear (chargeLabel : String) (i : Nat) (sh : SharedSeq)
    (h : chargeClearInv (chargeTagOf chargeLabel) sh) :
    chargeClearInv (chargeTagOf chargeLabel) (clearChargeForStep chargeLabel i sh) := by
  unfold clearChargeForStep
  by_cases hcond : 0 < i ∧ sh.formDataCharge = true
  · rw [if_pos hcond]
    right
    refine ⟨rfl, ?_⟩
    intro p hp
    simp only [List.mem_filter] at hp
    simpa using hp.2
  · rw [if_neg hcond]
    exact h

theorem chargeClearInv_runShared (chargeLabel : String) (is : List Nat)
    (sh : SharedSeq) (h : chargeClearInv (chargeTagOf chargeLabel) sh) :
    chargeClearInv (chargeTagOf chargeLabel) (runShared chargeLabel sh is) := by
  induction is generalizing sh with
  | nil => exact h
  | cons i is ih => exact ih _ (chargeClearInv_clear chargeLabel i sh h)

theorem clearChargeForStep_later (chargeLabel : String) (i : Nat) (sh : SharedSeq)
    (hi : 0 < i) (h : chargeClearInv (chargeTagOf chargeLabel) sh) :
    (clearChargeForStep chargeLabel i sh).formDataCharge = false
    ∧ (clearChargeForStep chargeLabel i sh).charge = false
    ∧ ∀ p ∈ (clearChargeForStep chargeLabel i sh).attackBonus,
        hasTag (chargeTagOf chargeLabel) p = false := by
  unfold clearChargeForStep
  by_cases hsel : sh.formDataCharge = true
  · rw [if_pos ⟨hi, hsel⟩]
    refine ⟨rfl, rfl, ?_⟩
    intro p hp
    simp only [List.mem_filter] at hp
    simpa using hp.2
  · have hcond : ¬(0 < i ∧ sh.formDataCharge = true) := fun hcontr => hsel hcontr.2
    rw [if_neg hcond]
    rcases h with h | ⟨hch, hparts⟩
    · exact absurd h hsel
    · exact ⟨Bool.not_eq_true _ |>.mp hsel, hch, hparts⟩

/-- C2: when a charge selection was made in the attack dialog, the step at
index 0 leaves the shared state untouched (the charge bonus term stays in
the step's extra attack-bonus parts), while every step at an index above 0
— whatever Advance steps happened before it — clears both selection flags
and produces a step context whose extra parts contain no term tagged with
the charge tag. `atkBonus` is the per-attack iterative bonus appended at
line 473, assumed untagged. -/
theorem charge_bonus_first_step_only (chargeLabel atkBonus : String)
    (sh0 : SharedSeq) (hsel : sh0.formDataCharge = true)
    (hatk : hasTag (chargeTagOf chargeLabel) atkBonus = false) :
    clearChargeForStep chargeLabel 0 sh0 = sh0
    ∧ stepExtraParts (clearChargeForStep chargeLabel 0 sh0) atkBonus
        = sh0.attackBonus ++ [atkBonus]
    ∧ ∀ (is : List Nat) (i : Nat), 0 < i →
        ((clearChargeForStep chargeLabel i (runShared chargeLabel sh0 is)).formDataCharge
            = false
        ∧ (clearChargeForStep chargeLabel i (runShared chargeLabel sh0 is)).charge
            = false
        ∧ ∀ p ∈ stepExtraParts
            (clearChargeForStep chargeLabel i (runShared chargeLabel sh0 is)) atkBonus,
            hasTag (chargeTagOf chargeLabel) p = false) := by
  have hstep0 : clearChargeForStep chargeLabel 0 sh0 = sh0 := by
    unfold clearChargeForStep
    rw [if_neg (by simp)]
  refine ⟨hstep0, by rw [hstep0]; rfl, ?_⟩
  intro is i hi
  have hinv : chargeClearInv (chargeTagOf chargeLabel) (runShared chargeLabel sh0 is) :=
    chargeClearInv_runShared chargeLabel is sh0 (Or.inl hsel)
  obtain ⟨h1, h2, h3⟩ :=
    clearChargeForStep_later chargeLabel i (runShared chargeLabel sh0 is) hi hinv
  refine ⟨h1, h2, ?_⟩
  intro p hp
  rcases List.mem_append.mp hp with hp | hp
  · exact h3 p hp
  · rw [List.mem_singleton.mp hp]
    exact hatk

theorem charge_bonus_first_step_only_witness :
    (clearChargeForStep "Charge" 1
        (runShared "Charge" ⟨true, true, ["2[Charge]", "1d6"]⟩ [])).formDataCharge
      = false
    ∧ (clearChargeForStep "Charge" 1
        (runShared "Charge" ⟨true, true, ["2[Charge]", "1d6"]⟩ [])).charge = false :=
  ⟨(((charge_bonus_first_step_only "Charge" "-5" ⟨true, true, ["2[Charge]", "1d6"]⟩
      rfl (by decide)).2.2 [] 1 (by decide))).1,
   (((charge_bonus_first_step_only "Charge" "-5" ⟨true, true, ["2[Charge]", "1d6"]⟩
      rfl (by decide)).2.2 [] 1 (by decide))).2.1⟩

/-- C9 counterexample: the pre-planning ammo filter only checks that the
ammo reference resolves (`hasAmmo`), so two planned attacks sharing one
ammo item of quantity 1 with ammo cost 1 both pass planning, and after
both per-step commits the persisted balance is `-1` — negative despite the
pre-planning affordability filter, because the commit never clamps. -/
theorem ammo_balance_goes_negative :
    planAmmoPhase true 1 [⟨true, 5, none, 0⟩, ⟨true, 5, none, 1⟩]
        = .ok [⟨true, 5, none, 0⟩, ⟨true, 5, none, 1⟩]
    ∧ (subtractSingleAttackAmmo true true (some 5)
        (subtractSingleAttackAmmo true true (some 5)
          (fun j => if j = 5 then some ⟨false, 1⟩ else none) 1) 1) 5
        = some ⟨false, -1⟩ := by
  constructor
  · rfl
  · rfl

/-- C9 amended: for every effective ammo commit the persisted balance
afterwards is exactly the balance before minus the step's ammo cost — no
runtime clamping — and if the item is flagged abundant the commit is a
no-op on the store that still succeeds; the resulting balance is
non-negative only when the pre-commit balance is at least the cost (the
pre-planning filter checks reference resolvability, not quantity, so it
does not itself prevent a negative balance). -/
theorem ammo_commit_balance (atkAmmoId : Nat) (items : Nat → Option AmmoItem)
    (it : AmmoItem) (ammoCost : Int) (hfound : items atkAmmoId = some it) :
    (it.abundant = false →
      (subtractSingleAttackAmmo true true (some atkAmmoId) items ammoCost) atkAmmoId
          = some { it with quantity := it.quantity - ammoCost }
      ∧ (ammoCost ≤ it.quantity → 0 ≤ it.quantity - ammoCost))
    ∧ (it.abundant = true →
        subtractSingleAttackAmmo true true (some atkAmmoId) items ammoCost = items) := by
  constructor
  · intro hab
    unfold subtractSingleAttackAmmo
    simp only [Bool.true_eq_false, if_false, hfound]
    rw [hab]
    simp only [Bool.false_eq_true, if_false, if_pos rfl]
    exact ⟨rfl, fun h => by omega⟩
  · intro hab
    unfold subtractSingleAttackAmmo
    simp only [Bool.true_eq_false, if_false, hfound]
    rw [hab]
    simp

theorem ammo_commit_balance_witness :
    (subtractSingleAttackAmmo true true (some 3)
        (fun j => if j = 3 then some ⟨false, 4⟩ else none) 1) 3
      = some ⟨false, (4 : Int) - 1⟩ :=
  ((ammo_commit_balance 3 (fun j => if j = 3 then some ⟨false, 4⟩ else none)
    ⟨false, 4⟩ 1 rfl).1 rfl).1

/-- Helper for the chat-card variant: restoring the original parts after a
narrowing write yields an action whose readable `attackParts` are the
original ones, whatever schema slot (system/data/none) the action uses. -/
theorem getAttackParts_restore (a : SeqCardAction) (ps : List AttackPart) :
    getAttackParts (setAttackParts (setAttackParts a ps) (getAttackParts a))
      = getAttackParts a := by
  rcases a with ⟨s, d⟩
  cases s with
  | some so => simp [setAttackParts, getAttackParts, Option.join]
  | none =>
      cases d with
      | some dd => simp [setAttackParts, getAttackParts, Option.join]
      | none => simp [setAttackParts]

/-- C10: any single-attack button click that reaches the roll (a valid
attack index) leaves the action's readable `attackParts` exactly as they
were and resets the module-level pending-single-attack flag to null —
whether `action.use` returned normally or threw, because both paths run
the `finally` restore. -/
theorem seq_card_click_restores (st : HandlerState) (actionId attackIndex : Nat)
    (outcome : UseOutcome)
    (h : attackIndex ≤ (getAttackParts st.action).length) :
    getAttackParts (seqCardClick st actionId attackIndex outcome).action
        = getAttackParts st.action
    ∧ (seqCardClick st actionId attackIndex outcome).pending = none := by
  have hguard : ¬ ((getAttackParts st.action).length < attackIndex) := not_lt.mpr h
  cases outcome with
  | ok =>
      unfold seqCardClick
      rw [if_neg hguard]
      exact ⟨getAttackParts_restore st.action _, rfl⟩
  | threw =>
      unfold seqCardClick
      rw [if_neg hguard]
      exact ⟨getAttackParts_restore st.action _, rfl⟩

theorem seq_card_click_restores_witness :
    getAttackParts (seqCardClick
        ⟨⟨some (some [(("+5" : String), ("Bite" : String))]), none⟩, none⟩
        7 1 UseOutcome.threw).action
      = getAttackParts
          (⟨⟨some (some [(("+5" : String), ("Bite" : String))]), none⟩, none⟩
            : HandlerState).action
    ∧ (seqCardClick
        ⟨⟨some (some [(("+5" : String), ("Bite" : String))]), none⟩, none⟩
        7 1 UseOutcome.threw).pending = none :=
  seq_card_click_restores
    ⟨⟨some (some [(("+5" : String), ("Bite" : String))]), none⟩, none⟩
    7 1 UseOutcome.threw (by decide)
